import Mathlib

/-!
Verification model of `gpu_credit.py`.

The file embeds the two Python implementations (`CreditSystem`, working on
tagged tuples, and `GpuCreditSystem`, working on dataclass events) as pure
Lean functions.  Python integers are modelled as `Int`.  A `heapq` min-heap
of `(expire_ts, remaining_amount)` tuples is modelled extensionally as a
list kept sorted in the lexicographic order on pairs: `heappush` is ordered
insertion and `heappop` removes the head, which is exactly the tuple
`heappop` returns (the lexicographically smallest element).  Raising
`InsufficientCreditException` is modelled by `Option`: `none` is the raised
exception, `some b` a returned balance.
-/

/-- Dataclass `GrantEvent(amount, ts, expire_ts)` from `gpu_credit.py`. -/
structure GrantEvent where
  amount : Int
  ts : Int
  expire_ts : Int
deriving DecidableEq

/-- Dataclass `SubtractEvent(amount, ts)` from `gpu_credit.py`. -/
structure SubtractEvent where
  amount : Int
  ts : Int
deriving DecidableEq

/-- An entry of `GpuCreditSystem.event_log`: either kind of event. -/
inductive Event where
  | grant (g : GrantEvent)
  | subtract (s : SubtractEvent)
deriving DecidableEq

/-- The `.ts` field used by the filter and the sort key in `getBalance`. -/
def Event.ts : Event → Int
  | .grant g => g.ts
  | .subtract s => s.ts

/-- The `.amount` field of either event kind. -/
def Event.amount : Event → Int
  | .grant g => g.amount
  | .subtract s => s.amount

/-- A heap entry `(expire_ts, remaining_amount)`. -/
abbrev Bucket : Type := Int × Int

/-- Lexicographic comparison on heap entries: the order in which Python
compares the tuples `(expire_ts, remaining_amount)` inside `heapq`. -/
def bLE (a b : Bucket) : Prop :=
  a.1 < b.1 ∨ (a.1 = b.1 ∧ a.2 ≤ b.2)

instance : DecidableRel bLE := fun a b => by
  unfold bLE; infer_instance

instance : IsTotal Bucket bLE := by
  constructor
  intro a b
  unfold bLE
  rcases lt_trichotomy a.1 b.1 with h | h | h
  · exact Or.inl (Or.inl h)
  · rcases le_total a.2 b.2 with h2 | h2
    · exact Or.inl (Or.inr ⟨h, h2⟩)
    · exact Or.inr (Or.inr ⟨h.symm, h2⟩)
  · exact Or.inr (Or.inl h)

instance : IsTrans Bucket bLE := by
  constructor
  intro a b c hab hbc
  unfold bLE at *
  rcases hab with h1 | ⟨h1, h1'⟩ <;> rcases hbc with h2 | ⟨h2, h2'⟩
  · exact Or.inl (h1.trans h2)
  · exact Or.inl (h2 ▸ h1)
  · exact Or.inl (h1 ▸ h2)
  · exact Or.inr ⟨h1.trans h2, h1'.trans h2'⟩

instance : IsAntisymm Bucket bLE := by
  constructor
  intro a b hab hba
  unfold bLE at *
  rcases hab with h1 | ⟨h1, h1'⟩
  · rcases hba with h2 | ⟨h2, _⟩
    · exact absurd (h1.trans h2) (lt_irrefl _)
    · exact absurd h1 (h2 ▸ lt_irrefl _)
  · rcases hba with h2 | ⟨_, h2'⟩
    · exact absurd h2 (h1 ▸ lt_irrefl _)
    · exact Prod.ext h1 (le_antisymm h1' h2')

/-- `heappush(active_credits, b)`: ordered insertion keeps the list model
sorted, so its head stays the element `heappop` would return. -/
def heapPush (h : List Bucket) (b : Bucket) : List Bucket :=
  List.orderedInsert bLE b h

/-- Inner helper of `getBalance`:
`while active_credits and active_credits[0][0] <= up_to_ts: heappop(...)`. -/
def expire_credits (up_to_ts : Int) : List Bucket → List Bucket
  | [] => []
  | b :: rest => if b.1 ≤ up_to_ts then expire_credits up_to_ts rest else b :: rest

/-- The `while need > 0` consumption loop of a `SubtractEvent` in
`GpuCreditSystem.getBalance`.  Each iteration first tests `need > 0`; the
body raises (`none`) on an empty heap, pops `(expire_ts, available)`,
pushes back `available - need` if `available > need`, else carries
`need - available` to the next bucket. -/
def consume : Int → List Bucket → Option (List Bucket)
  | need, [] => if need > 0 then none else some []
  | need, (e, a) :: rest =>
      if need > 0 then
        if a > need then some (heapPush rest (e, a - need))
        else consume (need - a) rest
      else some ((e, a) :: rest)

/-- The `for event in events` replay loop of `GpuCreditSystem.getBalance`:
expire at the event's timestamp, then push a grant's bucket or run the
consumption loop of a subtract. -/
def replay : List Event → List Bucket → Option (List Bucket)
  | [], h => some h
  | .grant g :: rest, h =>
      replay rest (heapPush (expire_credits g.ts h) (g.expire_ts, g.amount))
  | .subtract s :: rest, h =>
      match consume s.amount (expire_credits s.ts h) with
      | none => none
      | some h' => replay rest h'

/-- Sort key relation of `events.sort(key=lambda e: e.ts)`. -/
def eLE (a b : Event) : Prop := a.ts ≤ b.ts

instance : DecidableRel eLE := fun a b => by
  unfold eLE; infer_instance

instance : IsTotal Event eLE := ⟨fun a b => le_total a.ts b.ts⟩

instance : IsTrans Event eLE := ⟨fun _ _ _ hab hbc => le_trans hab hbc⟩

/-- `events.sort(key=lambda e: e.ts)`: Python's sort is stable, modelled by
stable insertion sort on the `ts` key. -/
def sortByTs (l : List Event) : List Event :=
  List.insertionSort eLE l

/-- Lines 150–151 of `gpu_credit.py`: filter the log to events with
`e.ts <= ts` and sort them by timestamp (stably). -/
def selectedEvents (log : List Event) (ts : Int) : List Event :=
  sortByTs (log.filter (fun e => e.ts ≤ ts))

/-- `sum(amount for _, amount in active_credits)`. -/
def sumHeap (h : List Bucket) : Int :=
  (h.map (fun b => b.2)).sum

/-- The heap state of `GpuCreditSystem.getBalance` after the replay and the
final `expire_credits(ts)` pass; `none` when the replay raised. -/
def finalHeap (log : List Event) (ts : Int) : Option (List Bucket) :=
  (replay (selectedEvents log ts) []).map (expire_credits ts)

/-- `GpuCreditSystem.getBalance(ts)`: `some` balance, or `none` for a raised
`InsufficientCreditException`. -/
def GpuCreditSystem.getBalance (log : List Event) (ts : Int) : Option Int :=
  (finalHeap log ts).map sumHeap

/-- `GpuCreditSystem.createGrant(id, amount, ts, expire_ts)`: appends a
`GrantEvent`; the `id` argument is dropped. -/
def GpuCreditSystem.createGrant (log : List Event) (_id : Int)
    (amount ts expire_ts : Int) : List Event :=
  log ++ [Event.grant ⟨amount, ts, expire_ts⟩]

/-- `GpuCreditSystem.subtract(amount, ts)`: appends a `SubtractEvent`. -/
def GpuCreditSystem.subtract (log : List Event) (amount ts : Int) : List Event :=
  log ++ [Event.subtract ⟨amount, ts⟩]

/-- An entry of `CreditSystem.event_log` (the first, tuple-based
implementation): `("GRANT", amount, ts, exp_ts)` or
`("SUBTRACT", amount, ts)`. -/
inductive CSEvent where
  | grant (amount ts exp_ts : Int)
  | subtract (amount ts : Int)
deriving DecidableEq

/-- The `e[2]` slot used by the filter and sort key of
`CreditSystem.getBalance`. -/
def CSEvent.ts : CSEvent → Int
  | .grant _ ts _ => ts
  | .subtract _ ts => ts

/-- Nested `expire_credits(up_to_ts)` of `CreditSystem.getBalance`
(lines 78–80): pop while the heap front expires at or before `up_to_ts`. -/
def csExpire (up_to_ts : Int) : List Bucket → List Bucket
  | [] => []
  | b :: rest => if b.1 ≤ up_to_ts then csExpire up_to_ts rest else b :: rest

/-- The `while amount_to_spend > 0` loop of `CreditSystem.getBalance`
(lines 98–111), with `leftover = available - amount_to_spend` pushed back
on a partial consume. -/
def csConsume : Int → List Bucket → Option (List Bucket)
  | amount_to_spend, [] => if amount_to_spend > 0 then none else some []
  | amount_to_spend, (exp_ts, available) :: rest =>
      if amount_to_spend > 0 then
        if available > amount_to_spend then
          some (heapPush rest (exp_ts, available - amount_to_spend))
        else csConsume (amount_to_spend - available) rest
      else some ((exp_ts, available) :: rest)

/-- The `for event in eligible_events` loop of `CreditSystem.getBalance`
(lines 83–111). -/
def csReplay : List CSEvent → List Bucket → Option (List Bucket)
  | [], h => some h
  | .grant amount ts exp_ts :: rest, h =>
      csReplay rest (heapPush (csExpire ts h) (exp_ts, amount))
  | .subtract amount ts :: rest, h =>
      match csConsume amount (csExpire ts h) with
      | none => none
      | some h' => csReplay rest h'

/-- Sort key relation of `eligible_events.sort(key=lambda e: e[2])`. -/
def csLE (a b : CSEvent) : Prop := a.ts ≤ b.ts

instance : DecidableRel csLE := fun a b => by
  unfold csLE; infer_instance

instance : IsTotal CSEvent csLE := ⟨fun a b => le_total a.ts b.ts⟩

instance : IsTrans CSEvent csLE := ⟨fun _ _ _ hab hbc => le_trans hab hbc⟩

/-- `eligible_events.sort(key=lambda e: e[2])`: stable sort by timestamp. -/
def csSortByTs (l : List CSEvent) : List CSEvent :=
  List.insertionSort csLE l

/-- `CreditSystem.getBalance(ts)` (lines 70–117). -/
def CreditSystem.getBalance (log : List CSEvent) (ts : Int) : Option Int :=
  (csReplay (csSortByTs (log.filter (fun e => e.ts ≤ ts))) []).map
    (fun h => sumHeap (csExpire ts h))

/-- `CreditSystem.createGrant(grant_id, amount, ts, exp_ts)`: appends the
tuple `("GRANT", amount, ts, exp_ts)`; `grant_id` is dropped. -/
def CreditSystem.createGrant (log : List CSEvent) (_grant_id : Int)
    (amount ts exp_ts : Int) : List CSEvent :=
  log ++ [CSEvent.grant amount ts exp_ts]

/-- `CreditSystem.subtract(amount, ts)`: appends `("SUBTRACT", amount, ts)`. -/
def CreditSystem.subtract (log : List CSEvent) (amount ts : Int) : List CSEvent :=
  log ++ [CSEvent.subtract amount ts]

/-- A call made against either implementation: `createGrant(id, amount, ts,
expire_ts)` or `subtract(amount, ts)`. -/
inductive Op where
  | createGrant (id amount ts expire_ts : Int)
  | subtract (amount ts : Int)

/-- Effect of one call on `CreditSystem.event_log`. -/
def CreditSystem.step (log : List CSEvent) (op : Op) : List CSEvent :=
  match op with
  | .createGrant i a t e => CreditSystem.createGrant log i a t e
  | .subtract a t => CreditSystem.subtract log a t

/-- The `CreditSystem.event_log` produced by a sequence of calls. -/
def CreditSystem.run (ops : List Op) : List CSEvent :=
  ops.foldl CreditSystem.step []

/-- Effect of one call on `GpuCreditSystem.event_log`. -/
def GpuCreditSystem.step (log : List Event) (op : Op) : List Event :=
  match op with
  | .createGrant i a t e => GpuCreditSystem.createGrant log i a t e
  | .subtract a t => GpuCreditSystem.subtract log a t

/-- The `GpuCreditSystem.event_log` produced by the same sequence of calls. -/
def GpuCreditSystem.run (ops : List Op) : List Event :=
  ops.foldl GpuCreditSystem.step []

/-- `GpuCreditSystem.getBalance` as a state transformer on the instance
state `self.event_log`.  The method body (lines 148–181) only reads
`self.event_log`: the comprehension on line 150 builds a fresh list and
`events.sort(...)` sorts that copy, so the state component is returned
unchanged. -/
def GpuCreditSystem.getBalanceOp (s : List Event) (ts : Int) :
    List Event × Option Int :=
  (s, GpuCreditSystem.getBalance s ts)

/-- Total remaining amount of the buckets expiring strictly after `T`:
the credit a heap can still contribute to a balance at time `T`. -/
def sumAfter (h : List Bucket) (T : Int) : Int :=
  sumHeap (h.filter (fun b => T < b.1))

/-- All bucket amounts in the heap are nonnegative. -/
def HNonneg (h : List Bucket) : Prop := ∀ b ∈ h, 0 ≤ b.2

/-- All event amounts in a log are nonnegative (the spec's `quantity`
type is a non-negative number). -/
def ENonneg (l : List Event) : Prop := ∀ e ∈ l, 0 ≤ e.amount

/-- Insertion of a newly appended event into an already sorted list, after
every element whose timestamp is `≤` its own: the position a stable sort
gives to the last-recorded event. -/
def insertLast (x : Event) : List Event → List Event
  | [] => [x]
  | y :: rest => if y.ts ≤ x.ts then y :: insertLast x rest else x :: y :: rest

/-- Translation of a tuple event of `CreditSystem` into the dataclass event
of `GpuCreditSystem` carrying the same fields. -/
def toEvent : CSEvent → Event
  | .grant amount ts exp_ts => .grant ⟨amount, ts, exp_ts⟩
  | .subtract amount ts => .subtract ⟨amount, ts⟩

/-- Fuel-indexed version of the `while need > 0` loop: `none` when the
iteration budget is exhausted, `some r` when the loop finishes with outcome
`r` within the budget. -/
def consumeFuel : Nat → Int → List Bucket → Option (Option (List Bucket))
  | 0, _, _ => none
  | fuel + 1, need, h =>
      if need > 0 then
        match h with
        | [] => some none
        | (e, a) :: rest =>
            if a > need then some (some (heapPush rest (e, a - need)))
            else consumeFuel fuel (need - a) rest
      else some (some h)

example :
    GpuCreditSystem.getBalance [.subtract ⟨1, 30⟩] 30 = none := by decide

example :
    GpuCreditSystem.getBalance [.subtract ⟨1, 30⟩, .grant ⟨1, 10, 100⟩] 30 = some 0 := by
  decide

example :
    GpuCreditSystem.getBalance [.grant ⟨3, 10, 60⟩, .grant ⟨2, 20, 40⟩,
      .subtract ⟨1, 30⟩, .subtract ⟨3, 50⟩] 40 = some 3 := by decide

example :
    GpuCreditSystem.getBalance [.grant ⟨3, 10, 60⟩, .grant ⟨2, 20, 40⟩,
      .subtract ⟨1, 30⟩, .subtract ⟨3, 50⟩] 50 = some 0 := by decide

theorem bLE_fst {a b : Bucket} (h : bLE a b) : a.1 ≤ b.1 := by
  rcases h with h1 | ⟨h1, _⟩
  · exact le_of_lt h1
  · exact le_of_eq h1

theorem heapPush_sorted {h : List Bucket} (b : Bucket) (hs : List.Sorted bLE h) :
    List.Sorted bLE (heapPush h b) :=
  List.Sorted.orderedInsert b h hs

theorem heapPush_perm (h : List Bucket) (b : Bucket) :
    List.Perm (heapPush h b) (b :: h) :=
  List.perm_orderedInsert bLE b h

theorem expire_sublist (t : Int) (h : List Bucket) :
    List.Sublist (expire_credits t h) h := by
  induction h with
  | nil => simp [expire_credits]
  | cons b rest ih =>
    by_cases hb : b.1 ≤ t
    · have e : expire_credits t (b :: rest) = expire_credits t rest := by
        simp [expire_credits, hb]
      rw [e]
      exact ih.trans (List.sublist_cons_self b rest)
    · have e : expire_credits t (b :: rest) = b :: rest := by
        simp [expire_credits, hb]
      rw [e]

theorem expire_sorted {h : List Bucket} (t : Int) (hs : List.Sorted bLE h) :
    List.Sorted bLE (expire_credits t h) :=
  List.Pairwise.sublist (expire_sublist t h) hs

theorem HNonneg_expire {h : List Bucket} (t : Int) (hn : HNonneg h) :
    HNonneg (expire_credits t h) :=
  fun b hb => hn b ((expire_sublist t h).subset hb)

theorem HNonneg_push {h : List Bucket} {b : Bucket} (hn : HNonneg h) (hb : 0 ≤ b.2) :
    HNonneg (heapPush h b) := by
  intro x hx
  rcases List.mem_cons.mp ((heapPush_perm h b).mem_iff.mp hx) with hxb | hxh
  · rw [hxb]; exact hb
  · exact hn x hxh

theorem expire_eq_filter {h : List Bucket} (t : Int) (hs : List.Sorted bLE h) :
    expire_credits t h = h.filter (fun b => t < b.1) := by
  induction h with
  | nil => rfl
  | cons b rest ih =>
    by_cases hb : b.1 ≤ t
    · have e : expire_credits t (b :: rest) = expire_credits t rest := by
        simp [expire_credits, hb]
      rw [e, ih hs.of_cons, List.filter_cons]
      simp [not_lt.mpr hb]
    · have hbt : t < b.1 := not_le.mp hb
      have e : expire_credits t (b :: rest) = b :: rest := by
        simp [expire_credits, hb]
      have hall : ∀ x ∈ rest, bLE b x := (List.sorted_cons.mp hs).1
      have hrest : List.filter (fun c => decide (t < c.1)) rest = rest :=
        List.filter_eq_self.mpr (fun x hx => by
          simpa using lt_of_lt_of_le hbt (bLE_fst (hall x hx)))
      rw [e, List.filter_cons]
      simp [hbt, hrest]

theorem mem_expire_lt {h : List Bucket} {t : Int} {b : Bucket}
    (hs : List.Sorted bLE h) (hb : b ∈ expire_credits t h) : t < b.1 := by
  rw [expire_eq_filter t hs] at hb
  simpa using (List.mem_filter.mp hb).2

theorem expire_expire (t u : Int) (h : List Bucket) (htu : t ≤ u) :
    expire_credits u (expire_credits t h) = expire_credits u h := by
  induction h with
  | nil => rfl
  | cons b rest ih =>
    by_cases hb : b.1 ≤ t
    · have e1 : expire_credits t (b :: rest) = expire_credits t rest := by
        simp [expire_credits, hb]
      have e2 : expire_credits u (b :: rest) = expire_credits u rest := by
        simp [expire_credits, hb.trans htu]
      rw [e1, ih, e2]
    · have e1 : expire_credits t (b :: rest) = b :: rest := by
        simp [expire_credits, hb]
      rw [e1]

theorem sumHeap_nil : sumHeap [] = 0 := rfl

theorem sumHeap_cons (b : Bucket) (h : List Bucket) :
    sumHeap (b :: h) = b.2 + sumHeap h := by
  simp [sumHeap]

theorem sumHeap_nonneg {h : List Bucket} (hn : HNonneg h) : 0 ≤ sumHeap h := by
  induction h with
  | nil => simp [sumHeap]
  | cons b rest ih =>
    have h1 := hn b (List.mem_cons_self b rest)
    have h2 := ih (fun x hx => hn x (List.mem_cons_of_mem _ hx))
    rw [sumHeap_cons]
    omega

theorem sumHeap_perm {h₁ h₂ : List Bucket} (hp : List.Perm h₁ h₂) :
    sumHeap h₁ = sumHeap h₂ :=
  List.Perm.sum_eq (hp.map _)

theorem sumAfter_perm {h₁ h₂ : List Bucket} (T : Int) (hp : List.Perm h₁ h₂) :
    sumAfter h₁ T = sumAfter h₂ T :=
  sumHeap_perm (hp.filter _)

theorem sumHeap_push (h : List Bucket) (b : Bucket) :
    sumHeap (heapPush h b) = b.2 + sumHeap h := by
  rw [sumHeap_perm (heapPush_perm h b), sumHeap_cons]

theorem sumAfter_nil (T : Int) : sumAfter [] T = 0 := rfl

theorem sumAfter_cons (b : Bucket) (h : List Bucket) (T : Int) :
    sumAfter (b :: h) T = (if T < b.1 then b.2 else 0) + sumAfter h T := by
  by_cases hb : T < b.1 <;>
    simp [sumAfter, List.filter_cons, hb, sumHeap_cons]

theorem sumAfter_push (h : List Bucket) (b : Bucket) (T : Int) :
    sumAfter (heapPush h b) T = (if T < b.1 then b.2 else 0) + sumAfter h T := by
  rw [sumAfter_perm T (heapPush_perm h b), sumAfter_cons]

theorem sumAfter_nonneg {h : List Bucket} (hn : HNonneg h) (T : Int) :
    0 ≤ sumAfter h T :=
  sumHeap_nonneg (fun b hb => hn b (List.mem_of_mem_filter hb))

theorem sumAfter_le_sum {h : List Bucket} (hn : HNonneg h) (T : Int) :
    sumAfter h T ≤ sumHeap h := by
  induction h with
  | nil => simp [sumAfter, sumHeap]
  | cons b rest ih =>
    have h1 := hn b (List.mem_cons_self b rest)
    have h2 := ih (fun x hx => hn x (List.mem_cons_of_mem _ hx))
    rw [sumAfter_cons, sumHeap_cons]
    by_cases hb : T < b.1 <;> simp [hb] <;> omega

theorem sumHeap_expire {h : List Bucket} (t : Int) (hs : List.Sorted bLE h) :
    sumHeap (expire_credits t h) = sumAfter h t := by
  rw [expire_eq_filter t hs]; rfl

theorem sumAfter_expire {h : List Bucket} (t T : Int) (hs : List.Sorted bLE h) :
    sumAfter (expire_credits t h) T = sumAfter h (max t T) := by
  rw [expire_eq_filter t hs]
  unfold sumAfter
  rw [List.filter_filter]
  congr 1
  apply List.filter_congr
  intro b _
  by_cases h1 : t < b.1 <;> by_cases h2 : T < b.1 <;>
    simp [h1, h2, max_lt_iff]

theorem sumAfter_eq_sumHeap {h : List Bucket} {T : Int}
    (hall : ∀ x ∈ h, T < x.1) : sumAfter h T = sumHeap h := by
  unfold sumAfter
  rw [List.filter_eq_self.mpr (fun x hx => by simpa using hall x hx)]

theorem consume_nonpos {c : Int} (h : List Bucket) (hc : c ≤ 0) :
    consume c h = some h := by
  cases h with
  | nil => simp [consume, not_lt.mpr hc]
  | cons b rest =>
    obtain ⟨e, a⟩ := b
    simp [consume, not_lt.mpr hc]

theorem consume_sorted {h : List Bucket} {c : Int} {k : List Bucket}
    (hs : List.Sorted bLE h) (hk : consume c h = some k) :
    List.Sorted bLE k := by
  induction h generalizing c with
  | nil =>
    by_cases hc : c > 0
    · simp [consume, hc] at hk
    · simp [consume, hc] at hk
      subst hk; simp
  | cons b rest ih =>
    obtain ⟨e, a⟩ := b
    by_cases hc : c > 0
    · by_cases hac : a > c
      · simp [consume, hc, hac] at hk
        rw [← hk]
        exact heapPush_sorted _ hs.of_cons
      · simp [consume, hc, hac] at hk
        exact ih hs.of_cons hk
    · simp [consume, hc] at hk
      rw [← hk]; exact hs

theorem consume_nonneg {h : List Bucket} {c : Int} {k : List Bucket}
    (hn : HNonneg h) (hk : consume c h = some k) : HNonneg k := by
  induction h generalizing c with
  | nil =>
    by_cases hc : c > 0
    · simp [consume, hc] at hk
    · simp [consume, hc] at hk
      subst hk; intro x hx; cases hx
  | cons b rest ih =>
    obtain ⟨e, a⟩ := b
    have hnr : HNonneg rest := fun x hx => hn x (List.mem_cons_of_mem _ hx)
    by_cases hc : c > 0
    · by_cases hac : a > c
      · simp [consume, hc, hac] at hk
        rw [← hk]
        exact HNonneg_push hnr (by simp; omega)
      · simp [consume, hc, hac] at hk
        exact ih hnr hk
    · simp [consume, hc] at hk
      rw [← hk]; exact hn

theorem consume_some_le {h : List Bucket} {c : Int} {k : List Bucket}
    (hn : HNonneg h) (hc0 : 0 ≤ c) (hk : consume c h = some k) :
    c ≤ sumHeap h := by
  induction h generalizing c with
  | nil =>
    by_cases hc : c > 0
    · simp [consume, hc] at hk
    · simp [sumHeap]; omega
  | cons b rest ih =>
    obtain ⟨e, a⟩ := b
    have hnr : HNonneg rest := fun x hx => hn x (List.mem_cons_of_mem _ hx)
    have hsr : 0 ≤ sumHeap rest := sumHeap_nonneg hnr
    rw [sumHeap_cons]
    by_cases hc : c > 0
    · by_cases hac : a > c
      · simp; omega
      · simp [consume, hc, hac] at hk
        have := ih hnr (by omega) hk
        simp at this ⊢; omega
    · have ha := hn (e, a) (List.mem_cons_self _ _)
      simp at ha ⊢; omega

theorem consume_none_lt {h : List Bucket} {c : Int} (hn : HNonneg h)
    (hnone : consume c h = none) : sumHeap h < c := by
  induction h generalizing c with
  | nil =>
    by_cases hc : c > 0
    · simpa [sumHeap] using hc
    · simp [consume, hc] at hnone
  | cons b rest ih =>
    obtain ⟨e, a⟩ := b
    have hnr : HNonneg rest := fun x hx => hn x (List.mem_cons_of_mem _ hx)
    by_cases hc : c > 0
    · by_cases hac : a > c
      · simp [consume, hc, hac] at hnone
      · simp [consume, hc, hac] at hnone
        have := ih hnr hnone
        rw [sumHeap_cons]; omega
    · simp [consume, hc] at hnone

theorem consume_spec {h : List Bucket} {c : Int} (hs : List.Sorted bLE h)
    (hn : HNonneg h) (hc0 : 0 ≤ c) (hcs : c ≤ sumHeap h) :
    ∃ k, consume c h = some k ∧ List.Sorted bLE k ∧ HNonneg k ∧
      sumHeap k = sumHeap h - c ∧
      ∀ T, sumAfter k T = min (sumAfter h T) (sumHeap h - c) := by
  induction h generalizing c with
  | nil =>
    have hc : c = 0 := le_antisymm (by simpa [sumHeap] using hcs) hc0
    subst hc
    refine ⟨[], ?_, ?_, ?_, ?_, ?_⟩
    · simp [consume]
    · simp
    · intro x hx; cases hx
    · simp
    · intro T; simp [sumAfter, sumHeap]
  | cons b rest ih =>
    obtain ⟨e, a⟩ := b
    have ha : 0 ≤ a := hn (e, a) (List.mem_cons_self _ _)
    have hnr : HNonneg rest := fun x hx => hn x (List.mem_cons_of_mem _ hx)
    have hsr : List.Sorted bLE rest := hs.of_cons
    have hall : ∀ x ∈ rest, e ≤ x.1 :=
      fun x hx => bLE_fst ((List.sorted_cons.mp hs).1 x hx)
    by_cases hc : c > 0
    · by_cases hac : a > c
      · refine ⟨heapPush rest (e, a - c), by simp [consume, hc, hac],
          heapPush_sorted _ hsr, HNonneg_push hnr (by simp; omega), ?_, ?_⟩
        · rw [sumHeap_push, sumHeap_cons]; simp; ring
        · intro T
          rw [sumAfter_push, sumAfter_cons]
          by_cases hT : T < e
          · have h1 : sumAfter rest T = sumHeap rest :=
              sumAfter_eq_sumHeap (fun x hx => lt_of_lt_of_le hT (hall x hx))
            rw [sumHeap_cons]
            simp [hT, h1]
            omega
          · have h2 := sumAfter_le_sum hnr T
            rw [sumHeap_cons]
            simp [hT]
            omega
      · have hac' : a ≤ c := not_lt.mp hac
        have hcs' : c - a ≤ sumHeap rest := by rw [sumHeap_cons] at hcs; omega
        obtain ⟨k, hk, hks, hkn, hksum, hkS⟩ := ih hsr hnr (by omega) hcs'
        refine ⟨k, by simp [consume, hc, hac]; exact hk, hks, hkn, ?_, ?_⟩
        · rw [hksum, sumHeap_cons]; ring
        · intro T
          rw [hkS T, sumAfter_cons, sumHeap_cons]
          by_cases hT : T < e
          · have h1 : sumAfter rest T = sumHeap rest :=
              sumAfter_eq_sumHeap (fun x hx => lt_of_lt_of_le hT (hall x hx))
            have h3 : 0 ≤ sumHeap rest := sumHeap_nonneg hnr
            simp [hT, h1]
            omega
          · simp [hT]
            omega
    · have hc0' : c = 0 := by omega
      subst hc0'
      refine ⟨(e, a) :: rest, by simp [consume], hs, hn, by ring_nf, ?_⟩
      intro T
      have := sumAfter_le_sum hn T
      omega

theorem replay_append (xs ys : List Event) (h : List Bucket) :
    replay (xs ++ ys) h = (replay xs h).bind (fun k => replay ys k) := by
  induction xs generalizing h with
  | nil => simp [replay]
  | cons e rest ih =>
    cases e with
    | grant g => simp [replay, ih]
    | subtract s =>
      simp only [List.cons_append, replay]
      cases consume s.amount (expire_credits s.ts h) <;> simp [ih]

theorem replay_sorted {es : List Event} {h k : List Bucket}
    (hs : List.Sorted bLE h) (hk : replay es h = some k) :
    List.Sorted bLE k := by
  induction es generalizing h with
  | nil =>
    simp [replay] at hk
    rw [← hk]; exact hs
  | cons e rest ih =>
    cases e with
    | grant g =>
      exact ih (heapPush_sorted _ (expire_sorted _ hs)) (by simpa [replay] using hk)
    | subtract s =>
      simp only [replay] at hk
      cases hcs : consume s.amount (expire_credits s.ts h) with
      | none => rw [hcs] at hk; cases hk
      | some h' =>
        rw [hcs] at hk
        exact ih (consume_sorted (expire_sorted _ hs) hcs) hk

theorem replay_nonneg {es : List Event} {h k : List Bucket}
    (hes : ∀ e ∈ es, 0 ≤ e.amount) (hn : HNonneg h) (hk : replay es h = some k) :
    HNonneg k := by
  induction es generalizing h with
  | nil =>
    simp [replay] at hk
    rw [← hk]; exact hn
  | cons e rest ih =>
    have hrest : ∀ x ∈ rest, 0 ≤ x.amount :=
      fun x hx => hes x (List.mem_cons_of_mem _ hx)
    cases e with
    | grant g =>
      have hg : 0 ≤ g.amount := hes (.grant g) (List.mem_cons_self _ _)
      exact ih hrest (HNonneg_push (HNonneg_expire _ hn) hg) (by simpa [replay] using hk)
    | subtract s =>
      simp only [replay] at hk
      cases hcs : consume s.amount (expire_credits s.ts h) with
      | none => rw [hcs] at hk; cases hk
      | some h' =>
        rw [hcs] at hk
        exact ih hrest (consume_nonneg (HNonneg_expire _ hn) hcs) hk

theorem replay_dom {t : Int} {es : List Event} {h h' k : List Bucket}
    (hs : List.Sorted bLE h) (hs' : List.Sorted bLE h')
    (hn : HNonneg h) (hn' : HNonneg h')
    (hes : ∀ e ∈ es, 0 ≤ e.amount) (hts : ∀ e ∈ es, t ≤ e.ts)
    (hdom : ∀ T, t ≤ T → sumAfter h T ≤ sumAfter h' T)
    (hk : replay es h = some k) :
    ∃ k', replay es h' = some k' ∧ List.Sorted bLE k ∧ List.Sorted bLE k' ∧
      HNonneg k ∧ HNonneg k' ∧
      ∀ T, t ≤ T → sumAfter k T ≤ sumAfter k' T := by
  induction es generalizing h h' with
  | nil =>
    simp [replay] at hk
    subst hk
    exact ⟨h', by simp [replay], hs, hs', hn, hn', hdom⟩
  | cons e rest ih =>
    have hesr : ∀ x ∈ rest, 0 ≤ x.amount :=
      fun x hx => hes x (List.mem_cons_of_mem _ hx)
    have htsr : ∀ x ∈ rest, t ≤ x.ts :=
      fun x hx => hts x (List.mem_cons_of_mem _ hx)
    cases e with
    | grant g =>
      have hg : 0 ≤ g.amount := hes _ (List.mem_cons_self _ _)
      have hgts : t ≤ g.ts := hts _ (List.mem_cons_self _ _)
      have hk1 : replay rest
          (heapPush (expire_credits g.ts h) (g.expire_ts, g.amount)) = some k := by
        simpa [replay] using hk
      have hdom1 : ∀ T, t ≤ T →
          sumAfter (heapPush (expire_credits g.ts h) (g.expire_ts, g.amount)) T ≤
          sumAfter (heapPush (expire_credits g.ts h') (g.expire_ts, g.amount)) T := by
        intro T hT
        rw [sumAfter_push, sumAfter_push, sumAfter_expire _ _ hs, sumAfter_expire _ _ hs']
        have := hdom (max g.ts T) (hgts.trans (le_max_left _ _))
        omega
      obtain ⟨k', hk', p1, p2, p3, p4, p5⟩ :=
        ih (heapPush_sorted _ (expire_sorted _ hs)) (heapPush_sorted _ (expire_sorted _ hs'))
          (HNonneg_push (HNonneg_expire _ hn) hg) (HNonneg_push (HNonneg_expire _ hn') hg)
          hesr htsr hdom1 hk1
      exact ⟨k', by simpa [replay] using hk', p1, p2, p3, p4, p5⟩
    | subtract s =>
      have hsam : 0 ≤ s.amount := hes _ (List.mem_cons_self _ _)
      have hsts : t ≤ s.ts := hts _ (List.mem_cons_self _ _)
      simp only [replay] at hk
      cases hcs : consume s.amount (expire_credits s.ts h) with
      | none => rw [hcs] at hk; cases hk
      | some h₁ =>
        rw [hcs] at hk
        have hse := expire_sorted s.ts hs
        have hne := HNonneg_expire s.ts hn
        have hcle : s.amount ≤ sumHeap (expire_credits s.ts h) :=
          consume_some_le hne hsam hcs
        have hsum1 : sumHeap (expire_credits s.ts h) = sumAfter h s.ts :=
          sumHeap_expire _ hs
        have hsum2 : sumHeap (expire_credits s.ts h') = sumAfter h' s.ts :=
          sumHeap_expire _ hs'
        have hle' : s.amount ≤ sumHeap (expire_credits s.ts h') := by
          rw [hsum2]
          rw [hsum1] at hcle
          exact hcle.trans (hdom s.ts hsts)
        obtain ⟨k₁', hk₁', hks', hkn', hksum', hkS'⟩ :=
          consume_spec (expire_sorted s.ts hs') (HNonneg_expire s.ts hn') hsam hle'
        obtain ⟨k₁, hk₁, hks, hkn, hksum, hkS⟩ := consume_spec hse hne hsam hcle
        have hkeq : k₁ = h₁ := by
          rw [hk₁] at hcs
          exact Option.some.inj hcs
        subst hkeq
        have hdom1 : ∀ T, t ≤ T → sumAfter k₁ T ≤ sumAfter k₁' T := by
          intro T hT
          rw [hkS T, hkS' T]
          rw [sumAfter_expire _ _ hs, sumAfter_expire _ _ hs', hsum1, hsum2]
          have d1 := hdom (max s.ts T) (hsts.trans (le_max_left _ _))
          have d2 := hdom s.ts hsts
          omega
        obtain ⟨k', hk', p1, p2, p3, p4, p5⟩ :=
          ih hks hks' hkn hkn' hesr htsr hdom1 hk
        exact ⟨k', by simp [replay, hk₁']; exact hk', p1, p2, p3, p4, p5⟩

theorem orderedInsert_insertLast (y x : Event) (m : List Event) :
    List.orderedInsert eLE y (insertLast x m) =
      insertLast x (List.orderedInsert eLE y m) := by
  induction m with
  | nil =>
    by_cases h1 : y.ts ≤ x.ts
    · simp [insertLast, List.orderedInsert, eLE, h1]
    · simp [insertLast, List.orderedInsert, eLE, h1, le_of_not_le h1]
  | cons z m' ih =>
    by_cases hzx : z.ts ≤ x.ts
    · by_cases hyz : y.ts ≤ z.ts
      · have hyx : y.ts ≤ x.ts := hyz.trans hzx
        simp [insertLast, List.orderedInsert, eLE, hzx, hyz, hyx]
      · simp [insertLast, List.orderedInsert, eLE, hzx, hyz, ih]
    · by_cases hyx : y.ts ≤ x.ts
      · have hxz : x.ts < z.ts := not_le.mp hzx
        have hyz : y.ts ≤ z.ts := hyx.trans hxz.le
        simp [insertLast, List.orderedInsert, eLE, hzx, hyx, hyz]
      · by_cases hyz : y.ts ≤ z.ts
        · simp [insertLast, List.orderedInsert, eLE, hzx, hyx, hyz]
        · simp [insertLast, List.orderedInsert, eLE, hzx, hyx, hyz]

theorem sortByTs_append (l : List Event) (x : Event) :
    sortByTs (l ++ [x]) = insertLast x (sortByTs l) := by
  induction l with
  | nil => simp [sortByTs, List.insertionSort, insertLast]
  | cons y l ih =>
    simp only [sortByTs, List.cons_append, List.insertionSort, List.append_eq] at *
    rw [ih, orderedInsert_insertLast]

theorem insertLast_decomp (x : Event) (m : List Event) :
    insertLast x m = m.takeWhile (fun y => y.ts ≤ x.ts) ++
      x :: m.dropWhile (fun y => y.ts ≤ x.ts) := by
  induction m with
  | nil => simp [insertLast]
  | cons z m' ih =>
    by_cases hzx : z.ts ≤ x.ts
    · simp [insertLast, List.takeWhile_cons, List.dropWhile_cons, hzx, ih]
    · simp [insertLast, List.takeWhile_cons, List.dropWhile_cons, hzx]

theorem mem_dropWhile_ts_lt {m : List Event} {c : Int} {e : Event}
    (hs : List.Sorted eLE m)
    (he : e ∈ m.dropWhile (fun y => y.ts ≤ c)) : c < e.ts := by
  induction m with
  | nil => simp at he
  | cons z m' ih =>
    by_cases hz : z.ts ≤ c
    · rw [List.dropWhile_cons, if_pos (by simpa using hz)] at he
      exact ih hs.of_cons he
    · rw [List.dropWhile_cons, if_neg (by simpa using hz)] at he
      rcases List.mem_cons.mp he with rfl | hem
      · exact not_le.mp hz
      · exact lt_of_lt_of_le (not_le.mp hz) ((List.sorted_cons.mp hs).1 e hem)

theorem filter_orderedInsert_ts_eq {x : Event} {t : Int} (hx : x.ts = t)
    (m : List Event) :
    (List.orderedInsert eLE x m).filter (fun e => e.ts = t) =
      x :: m.filter (fun e => e.ts = t) := by
  induction m with
  | nil => simp [List.orderedInsert, List.filter_cons, hx]
  | cons z m' ih =>
    by_cases hzx : eLE x z
    · simp [List.orderedInsert, hzx, List.filter_cons, hx]
    · have hz : z.ts < x.ts := not_le.mp (by simpa [eLE] using hzx)
      have hzt : ¬ (z.ts = t) := by omega
      simp [List.orderedInsert, hzx, List.filter_cons, hzt, ih]

theorem filter_orderedInsert_ts_ne {x : Event} {t : Int} (hx : ¬ x.ts = t)
    (m : List Event) :
    (List.orderedInsert eLE x m).filter (fun e => e.ts = t) =
      m.filter (fun e => e.ts = t) := by
  induction m with
  | nil => simp [List.orderedInsert, List.filter_cons, hx]
  | cons z m' ih =>
    by_cases hzx : eLE x z
    · simp [List.orderedInsert, hzx, List.filter_cons, hx]
    · simp [List.orderedInsert, hzx, List.filter_cons, ih]

theorem sortByTs_filter_ts (l : List Event) (t : Int) :
    (sortByTs l).filter (fun e => e.ts = t) = l.filter (fun e => e.ts = t) := by
  induction l with
  | nil => rfl
  | cons x l ih =>
    simp only [sortByTs, List.insertionSort] at *
    by_cases hx : x.ts = t
    · rw [filter_orderedInsert_ts_eq hx, ih, List.filter_cons]
      simp [hx]
    · rw [filter_orderedInsert_ts_ne hx, ih, List.filter_cons]
      simp [hx]

theorem expire_push_dead {h : List Bucket} {b : Bucket} {u : Int}
    (hs : List.Sorted bLE h) (hb : b.1 ≤ u) :
    expire_credits u (heapPush h b) = expire_credits u h := by
  have h1 : List.Sorted bLE (heapPush h b) := heapPush_sorted _ hs
  rw [expire_eq_filter u h1, expire_eq_filter u hs]
  apply List.eq_of_perm_of_sorted ?_ (List.Sorted.filter _ h1) (List.Sorted.filter _ hs)
  have hp := (heapPush_perm h b).filter (fun c => decide (u < c.1))
  rw [List.filter_cons] at hp
  simpa [not_lt.mpr hb] using hp

theorem replay_map_expire_congr {t q : Int} {h₁ h₂ : List Bucket} (B : List Event)
    (hexe : ∀ u, t ≤ u → expire_credits u h₁ = expire_credits u h₂)
    (hB : ∀ e ∈ B, t ≤ e.ts) (hq : t ≤ q) :
    (replay B h₁).map (expire_credits q) = (replay B h₂).map (expire_credits q) := by
  cases B with
  | nil => simp [replay, hexe q hq]
  | cons e rest =>
    have het : t ≤ e.ts := hB e (List.mem_cons_self _ _)
    cases e with
    | grant g =>
      simp only [replay]
      rw [hexe g.ts het]
    | subtract s =>
      simp only [replay]
      rw [hexe s.ts het]

theorem getBalance_append_step {log : List Event} {x : Event} {ts : Int}
    (hts : x.ts ≤ ts)
    (hstep : ∀ k : List Bucket, List.Sorted bLE k →
      ∃ kx, replay [x] k = some kx ∧
        ∀ u, x.ts ≤ u → expire_credits u kx = expire_credits u k) :
    GpuCreditSystem.getBalance (log ++ [x]) ts = GpuCreditSystem.getBalance log ts := by
  have hsel : selectedEvents (log ++ [x]) ts = insertLast x (selectedEvents log ts) := by
    unfold selectedEvents
    rw [List.filter_append]
    have : List.filter (fun e => decide (e.ts ≤ ts)) [x] = [x] := by simp [hts]
    rw [this, sortByTs_append]
  have hsorted : List.Sorted eLE (selectedEvents log ts) :=
    List.sorted_insertionSort eLE _
  set A := (selectedEvents log ts).takeWhile (fun y => y.ts ≤ x.ts) with hA
  set B := (selectedEvents log ts).dropWhile (fun y => y.ts ≤ x.ts) with hB
  have hAB : A ++ B = selectedEvents log ts := List.takeWhile_append_dropWhile _ _
  have hdec : selectedEvents (log ++ [x]) ts = A ++ [x] ++ B := by
    rw [hsel, insertLast_decomp, hA, hB, List.append_assoc, List.singleton_append]
  have hBmem : ∀ e ∈ B, x.ts ≤ e.ts := by
    intro e he
    exact (mem_dropWhile_ts_lt hsorted he).le
  unfold GpuCreditSystem.getBalance finalHeap
  rw [hdec, ← hAB, replay_append, replay_append, replay_append]
  cases hAr : replay A [] with
  | none => rfl
  | some k =>
    have hk : List.Sorted bLE k := replay_sorted (by simp) hAr
    obtain ⟨kx, hkx, hexp⟩ := hstep k hk
    simp only [Option.some_bind, hkx]
    have := replay_map_expire_congr B hexp hBmem hts
    rw [this]

theorem csExpire_eq (t : Int) (h : List Bucket) : csExpire t h = expire_credits t h := by
  induction h with
  | nil => rfl
  | cons b rest ih =>
    by_cases hb : b.1 ≤ t <;> simp [csExpire, expire_credits, hb, ih]

theorem csConsume_eq (c : Int) (h : List Bucket) : csConsume c h = consume c h := by
  induction h generalizing c with
  | nil => rfl
  | cons b rest ih =>
    obtain ⟨e, a⟩ := b
    by_cases hc : c > 0
    · by_cases hac : a > c <;> simp [csConsume, consume, hc, hac, ih]
    · simp [csConsume, consume, hc]

theorem toEvent_ts (e : CSEvent) : (toEvent e).ts = e.ts := by
  cases e <;> rfl

theorem csReplay_eq (es : List CSEvent) (h : List Bucket) :
    csReplay es h = replay (es.map toEvent) h := by
  induction es generalizing h with
  | nil => rfl
  | cons e rest ih =>
    cases e with
    | grant a t x =>
      simp [csReplay, replay, toEvent, Event.ts, csExpire_eq, ih]
    | subtract a t =>
      simp only [csReplay, List.map_cons, toEvent, replay, csExpire_eq, csConsume_eq]
      cases consume a (expire_credits t h) <;> simp [ih]

theorem csSort_map (l : List CSEvent) :
    (csSortByTs l).map toEvent = sortByTs (l.map toEvent) := by
  induction l with
  | nil => rfl
  | cons x l ih =>
    simp only [csSortByTs, sortByTs, List.insertionSort, List.map_cons] at *
    rw [← ih]
    generalize (List.insertionSort csLE l) = m
    induction m with
    | nil => rfl
    | cons z m' ihm =>
      by_cases hxz : csLE x z
      · have h2 : eLE (toEvent x) (toEvent z) := by
          simpa [eLE, csLE, toEvent_ts] using hxz
        simp [List.orderedInsert, hxz, h2]
      · have h2 : ¬ eLE (toEvent x) (toEvent z) := by
          simpa [eLE, csLE, toEvent_ts] using hxz
        simp [List.orderedInsert, hxz, h2, ihm]

theorem csFilter_map (l : List CSEvent) (ts : Int) :
    (l.filter (fun e => e.ts ≤ ts)).map toEvent =
      (l.map toEvent).filter (fun e => e.ts ≤ ts) := by
  induction l with
  | nil => rfl
  | cons x l ih =>
    by_cases hx : x.ts ≤ ts
    · have hx' : (toEvent x).ts ≤ ts := by rwa [toEvent_ts]
      simp [List.filter_cons, hx, hx', ih]
    · have hx' : ¬ (toEvent x).ts ≤ ts := by rwa [toEvent_ts]
      simp [List.filter_cons, hx, hx', ih]

theorem cs_getBalance_eq (l : List CSEvent) (ts : Int) :
    CreditSystem.getBalance l ts = GpuCreditSystem.getBalance (l.map toEvent) ts := by
  unfold CreditSystem.getBalance GpuCreditSystem.getBalance finalHeap selectedEvents
  rw [csReplay_eq, csSort_map, csFilter_map]
  cases replay (sortByTs ((l.map toEvent).filter (fun e => e.ts ≤ ts))) [] <;>
    simp [csExpire_eq]

theorem run_aux (ops : List Op) : ∀ acc : List CSEvent,
    List.foldl GpuCreditSystem.step (acc.map toEvent) ops =
      (List.foldl CreditSystem.step acc ops).map toEvent := by
  induction ops with
  | nil => intro acc; rfl
  | cons op rest ih =>
    intro acc
    simp only [List.foldl_cons]
    have hstep : GpuCreditSystem.step (acc.map toEvent) op =
        (CreditSystem.step acc op).map toEvent := by
      cases op <;> simp [GpuCreditSystem.step, CreditSystem.step,
        GpuCreditSystem.createGrant, CreditSystem.createGrant,
        GpuCreditSystem.subtract, CreditSystem.subtract, toEvent]
    rw [hstep, ih]

theorem run_map (ops : List Op) :
    GpuCreditSystem.run ops = (CreditSystem.run ops).map toEvent := by
  have := run_aux ops []
  simpa [GpuCreditSystem.run, CreditSystem.run] using this

theorem replay_none_iff (es : List Event) (h : List Bucket) :
    replay es h = none ↔
      ∃ A s B h₁, es = A ++ Event.subtract s :: B ∧ replay A h = some h₁ ∧
        consume s.amount (expire_credits s.ts h₁) = none := by
  induction es generalizing h with
  | nil =>
    constructor
    · intro hk
      simp [replay] at hk
    · rintro ⟨A, s, B, h₁, hAB, -, -⟩
      exact absurd hAB (by simp)
  | cons e rest ih =>
    cases e with
    | grant g =>
      constructor
      · intro hk
        obtain ⟨A, s, B, h₁, hAB, h1, h2⟩ := (ih _).mp (by simpa [replay] using hk)
        refine ⟨Event.grant g :: A, s, B, h₁, by rw [hAB]; rfl, ?_, h2⟩
        simpa [replay] using h1
      · rintro ⟨A, s, B, h₁, hAB, h1, h2⟩
        cases A with
        | nil => exact Event.noConfusion (List.head_eq_of_cons_eq hAB)
        | cons a A' =>
          injection hAB with hhead htail
          subst hhead
          subst htail
          have h1' : replay A'
              (heapPush (expire_credits g.ts h) (g.expire_ts, g.amount)) = some h₁ := by
            simpa [replay] using h1
          have := (ih _).mpr ⟨A', s, B, h₁, rfl, h1', h2⟩
          simpa [replay] using this
    | subtract s₀ =>
      cases hcs : consume s₀.amount (expire_credits s₀.ts h) with
      | none =>
        constructor
        · intro _
          exact ⟨[], s₀, rest, h, rfl, by simp [replay], hcs⟩
        · intro _
          simp [replay, hcs]
      | some h' =>
        constructor
        · intro hk
          have hk' : replay rest h' = none := by simpa [replay, hcs] using hk
          obtain ⟨A, s, B, h₁, hAB, h1, h2⟩ := (ih h').mp hk'
          refine ⟨Event.subtract s₀ :: A, s, B, h₁, by rw [hAB]; rfl, ?_, h2⟩
          simp [replay, hcs]
          exact h1
        · rintro ⟨A, s, B, h₁, hAB, h1, h2⟩
          cases A with
          | nil =>
            have hhead := List.head_eq_of_cons_eq hAB
            have htail := List.tail_eq_of_cons_eq hAB
            injection hhead with hse
            subst hse
            simp [replay] at h1
            subst h1
            rw [hcs] at h2
            cases h2
          | cons a A' =>
            injection hAB with hhead htail
            subst hhead
            subst htail
            have h1' : replay A' h' = some h₁ := by
              simpa [replay, hcs] using h1
            have := (ih h').mpr ⟨A', s, B, h₁, rfl, h1', h2⟩
            simpa [replay, hcs] using this

theorem mem_selected {log : List Event} {ts : Int} {e : Event}
    (he : e ∈ selectedEvents log ts) : e ∈ log := by
  simp only [selectedEvents, sortByTs] at he
  have h1 := (List.perm_insertionSort eLE (log.filter (fun x => decide (x.ts ≤ ts)))).mem_iff.mp he
  exact List.mem_of_mem_filter h1

theorem grant_preserves_success {log : List Event} {g : GrantEvent} {ts b : Int}
    (hlog : ENonneg log) (hg : 0 ≤ g.amount)
    (hb : GpuCreditSystem.getBalance log ts = some b) :
    ∃ b', GpuCreditSystem.getBalance (log ++ [Event.grant g]) ts = some b' ∧ b ≤ b' := by
  by_cases hts : g.ts ≤ ts
  swap
  · refine ⟨b, ?_, le_refl b⟩
    have hfil : List.filter (fun e => decide (e.ts ≤ ts)) (log ++ [Event.grant g]) =
        List.filter (fun e => decide (e.ts ≤ ts)) log := by
      rw [List.filter_append]
      simp [Event.ts, hts]
    unfold GpuCreditSystem.getBalance finalHeap selectedEvents at hb ⊢
    rw [hfil]
    exact hb
  · have hsel : selectedEvents (log ++ [Event.grant g]) ts =
        insertLast (Event.grant g) (selectedEvents log ts) := by
      unfold selectedEvents
      rw [List.filter_append]
      have hone : List.filter (fun e => decide (e.ts ≤ ts)) [Event.grant g] =
          [Event.grant g] := by
        simp [Event.ts, hts]
      rw [hone, sortByTs_append]
    have hsorted : List.Sorted eLE (selectedEvents log ts) :=
      List.sorted_insertionSort eLE _
    set x : Event := Event.grant g with hx
    set A := (selectedEvents log ts).takeWhile (fun y => y.ts ≤ x.ts) with hA
    set B := (selectedEvents log ts).dropWhile (fun y => y.ts ≤ x.ts) with hB
    have hAB : A ++ B = selectedEvents log ts := List.takeWhile_append_dropWhile _ _
    have hdec : selectedEvents (log ++ [x]) ts = A ++ [x] ++ B := by
      rw [hsel, insertLast_decomp, hA, hB, List.append_assoc, List.singleton_append]
    have hBts : ∀ e ∈ B, g.ts ≤ e.ts := by
      intro e he
      exact (mem_dropWhile_ts_lt hsorted he).le
    have hmemA : ∀ e ∈ A, 0 ≤ e.amount := by
      intro e he
      have hmem : e ∈ selectedEvents log ts := by
        rw [← hAB]; exact List.mem_append_left B he
      exact hlog e (mem_selected hmem)
    have hmemB : ∀ e ∈ B, 0 ≤ e.amount := by
      intro e he
      have hmem : e ∈ selectedEvents log ts := by
        rw [← hAB]; exact List.mem_append_right A he
      exact hlog e (mem_selected hmem)
    unfold GpuCreditSystem.getBalance finalHeap at hb
    rw [← hAB, replay_append] at hb
    cases hAr : replay A [] with
    | none => rw [hAr] at hb; simp at hb
    | some k =>
      rw [hAr] at hb
      simp only [Option.some_bind] at hb
      cases hBr : replay B k with
      | none => rw [hBr] at hb; simp at hb
      | some m =>
        rw [hBr] at hb
        have hbval : sumHeap (expire_credits ts m) = b := by simpa using hb
        have hkS : List.Sorted bLE k := replay_sorted (by simp) hAr
        have hkN : HNonneg k :=
          replay_nonneg hmemA (fun c hc => absurd hc (List.not_mem_nil c)) hAr
        set kg := heapPush (expire_credits g.ts k) (g.expire_ts, g.amount) with hkg
        have hkgS : List.Sorted bLE kg := heapPush_sorted _ (expire_sorted _ hkS)
        have hkgN : HNonneg kg := HNonneg_push (HNonneg_expire _ hkN) hg
        have hdom0 : ∀ T, g.ts ≤ T → sumAfter k T ≤ sumAfter kg T := by
          intro T hT
          rw [hkg, sumAfter_push, sumAfter_expire _ _ hkS, max_eq_right hT]
          have hnn : (0:Int) ≤ (if T < g.expire_ts then g.amount else 0) := by
            split <;> omega
          omega
        obtain ⟨m', hm', hmS, hm'S, hmN, hm'N, hdom⟩ :=
          replay_dom hkS hkgS hkN hkgN hmemB hBts hdom0 hBr
        refine ⟨sumHeap (expire_credits ts m'), ?_, ?_⟩
        · unfold GpuCreditSystem.getBalance finalHeap
          rw [hdec, replay_append, replay_append, hAr]
          simp only [Option.some_bind]
          have hxstep : replay [x] k = some kg := by
            simp [hx, replay, hkg]
          rw [hxstep]
          simp only [Option.some_bind]
          rw [hm']
          simp
        · rw [← hbval, sumHeap_expire _ hmS, sumHeap_expire _ hm'S]
          exact hdom ts hts

theorem dead_grant_spend_fails (a c t e : Int) (he : e < t) (hc : 0 < c) :
    GpuCreditSystem.getBalance
      [Event.grant ⟨a, t, e⟩, Event.subtract ⟨c, t⟩] t = none := by
  have h2 : expire_credits t [((e : Int), a)] = [] := by
    simp [expire_credits, he.le]
  have h1 : consume c ([] : List Bucket) = none := by
    simp [consume, hc]
  unfold GpuCreditSystem.getBalance finalHeap selectedEvents sortByTs
  simp [List.insertionSort, List.orderedInsert, eLE, Event.ts, replay, heapPush,
    expire_credits, h1, h2, hc, he.le]

theorem dead_grant_noop (log : List Event) (g : GrantEvent) (ts : Int)
    (hdead : g.expire_ts < g.ts) :
    GpuCreditSystem.getBalance (log ++ [Event.grant g]) ts =
      GpuCreditSystem.getBalance log ts := by
  by_cases h : g.ts ≤ ts
  · apply getBalance_append_step h
    intro k hk
    refine ⟨heapPush (expire_credits g.ts k) (g.expire_ts, g.amount),
      by simp [replay], ?_⟩
    intro u hu
    rw [expire_push_dead (expire_sorted _ hk) (le_trans hdead.le hu)]
    exact expire_expire g.ts u k hu
  · unfold GpuCreditSystem.getBalance finalHeap selectedEvents
    rw [List.filter_append]
    simp [Event.ts, h]

/-- C1 counterexample: for the grant `(amount 1, ts 10, expire_ts 3)` —
whose `expiresAt` precedes its `availableFrom` — a Spend of 1 sharing its
exact timestamp 10 cannot consume it: `getBalance(10)` raises
`InsufficientCredit` (is `none`), whereas the claim's "visible and
consumable by that same-timestamp Spend" would make the spend succeed and
the query return a balance. -/
theorem c1_counterexample :
    GpuCreditSystem.getBalance [Event.grant ⟨1, 10, 3⟩] 10 = some 0 ∧
    GpuCreditSystem.getBalance
      [Event.grant ⟨1, 10, 3⟩, Event.subtract ⟨1, 10⟩] 10 = none := by
  constructor <;> decide

/-- C1 (amended): for a grant whose `expire_ts` is earlier than its `ts`,
expiry is evaluated at event-processing boundaries and runs before
consumption, so the grant's bucket is never consumable: every bucket
surviving an expiry pass at time `t` expires strictly after `t`; a Spend
sharing the grant's exact timestamp finds the bucket already expired and
raises if it has nothing else to consume; and the grant contributes zero to
every balance query (in particular at or after its `expire_ts`) — appending
it changes no `getBalance` result. -/
theorem c1_dead_grant_amended :
    (∀ (t : Int) (h : List Bucket), List.Sorted bLE h →
        ∀ b ∈ expire_credits t h, t < b.1) ∧
    (∀ a c t e : Int, e < t → 0 < c →
        GpuCreditSystem.getBalance
          [Event.grant ⟨a, t, e⟩, Event.subtract ⟨c, t⟩] t = none) ∧
    (∀ (log : List Event) (g : GrantEvent) (ts : Int), g.expire_ts < g.ts →
        GpuCreditSystem.getBalance (log ++ [Event.grant g]) ts =
          GpuCreditSystem.getBalance log ts) :=
  ⟨fun _ _ hs _ hb => mem_expire_lt hs hb,
   dead_grant_spend_fails,
   fun log g ts hdead => dead_grant_noop log g ts hdead⟩

/-- C1 witness: the amended theorem applied at concrete inputs with all
hypotheses discharged. -/
theorem c1_witness :
    ((3:Int) < 10 ∧ (0:Int) < 2 ∧
      GpuCreditSystem.getBalance
        [Event.grant ⟨5, 10, 3⟩, Event.subtract ⟨2, 10⟩] 10 = none) ∧
    ((3:Int) < 10 ∧
      GpuCreditSystem.getBalance
          ([Event.grant ⟨7, 1, 50⟩] ++ [Event.grant ⟨5, 10, 3⟩]) 20 =
        GpuCreditSystem.getBalance [Event.grant ⟨7, 1, 50⟩] 20) :=
  ⟨⟨by decide, by decide,
      c1_dead_grant_amended.2.1 5 2 10 3 (by decide) (by decide)⟩,
   ⟨by decide,
      c1_dead_grant_amended.2.2 [Event.grant ⟨7, 1, 50⟩] ⟨5, 10, 3⟩ 20 (by decide)⟩⟩

/-- C2: a retroactive Grant with `availableFrom ≤` an insufficient Spend's
timestamp and `expiresAt` after it can turn a raising `getBalance` into a
succeeding one (the spec's scenario: spend 1 at ts 30, then grant 1
available from 10 until 100); and, amounts being nonnegative quantities,
appending a Grant never turns a succeeding `getBalance` into a raising one
— appending cannot reorder existing events since the sort is stable — and
the balance never decreases. -/
theorem c2_monotonic_retroactivity :
    (GpuCreditSystem.getBalance [Event.subtract ⟨1, 30⟩] 30 = none ∧
      GpuCreditSystem.getBalance
        ([Event.subtract ⟨1, 30⟩] ++ [Event.grant ⟨1, 10, 100⟩]) 30 = some 0) ∧
    (∀ (log : List Event) (g : GrantEvent) (ts b : Int),
      ENonneg log → 0 ≤ g.amount →
      GpuCreditSystem.getBalance log ts = some b →
      ∃ b', GpuCreditSystem.getBalance (log ++ [Event.grant g]) ts = some b' ∧
        b ≤ b') :=
  ⟨⟨by decide, by decide⟩,
   fun _ _ _ _ hlog hg hb => grant_preserves_success hlog hg hb⟩

/-- C2 witness: the preservation part applied at a concrete log and grant
with all hypotheses discharged. -/
theorem c2_witness :
    ENonneg [Event.grant ⟨3, 5, 20⟩] ∧ (0:Int) ≤ 2 ∧
    GpuCreditSystem.getBalance [Event.grant ⟨3, 5, 20⟩] 10 = some 3 ∧
    ∃ b', GpuCreditSystem.getBalance
        ([Event.grant ⟨3, 5, 20⟩] ++ [Event.grant ⟨2, 6, 30⟩]) 10 = some b' ∧
      (3:Int) ≤ b' :=
  ⟨by unfold ENonneg; decide, by decide, by decide,
   c2_monotonic_retroactivity.2 [Event.grant ⟨3, 5, 20⟩] ⟨2, 6, 30⟩ 10 3
     (by unfold ENonneg; decide) (by decide) (by decide)⟩

/-- C3: `InsufficientCredit` is raised by `getBalance` and only by
`getBalance`: the recording operations are total appends that always
succeed, and `getBalance` is `none` exactly when the ordered replay of the
selected events reaches a Spend whose consumption loop exhausts the active
buckets with a remainder still unmet — in which case the whole
reconstruction is `none` and no partial balance is returned. -/
theorem c3_error_handling :
    (∀ (log : List Event) (id a t e : Int),
        GpuCreditSystem.createGrant log id a t e = log ++ [Event.grant ⟨a, t, e⟩]) ∧
    (∀ (log : List Event) (a t : Int),
        GpuCreditSystem.subtract log a t = log ++ [Event.subtract ⟨a, t⟩]) ∧
    (∀ (log : List Event) (ts : Int),
        GpuCreditSystem.getBalance log ts = none ↔
          ∃ A s B h₁, selectedEvents log ts = A ++ Event.subtract s :: B ∧
            replay A [] = some h₁ ∧
            consume s.amount (expire_credits s.ts h₁) = none) := by
  refine ⟨fun _ _ _ _ _ => rfl, fun _ _ _ => rfl, ?_⟩
  intro log ts
  have hmap : GpuCreditSystem.getBalance log ts = none ↔
      replay (selectedEvents log ts) [] = none := by
    unfold GpuCreditSystem.getBalance finalHeap
    cases replay (selectedEvents log ts) [] <;> simp
  rw [hmap]
  exact replay_none_iff _ _

/-- C4: expiry is closed at the expiry instant.  Whenever `getBalance`
returns a balance, that balance is the sum of a final heap in which every
bucket expires strictly after the query timestamp (the final expiry pass
removed every bucket with `expire_ts ≤ queryTs`); and for a single replayed,
unconsumed grant, `getBalance(expire_ts - 1)` still counts its amount while
`getBalance(expire_ts)` counts zero. -/
theorem c4_expiry_closedness :
    (∀ (log : List Event) (ts b : Int),
        GpuCreditSystem.getBalance log ts = some b →
        ∃ fh, finalHeap log ts = some fh ∧ b = sumHeap fh ∧
          ∀ bk ∈ fh, ts < bk.1) ∧
    (∀ g : GrantEvent, g.ts < g.expire_ts →
        GpuCreditSystem.getBalance [Event.grant g] (g.expire_ts - 1) =
          some g.amount ∧
        GpuCreditSystem.getBalance [Event.grant g] g.expire_ts = some 0) := by
  constructor
  · intro log ts b hb
    unfold GpuCreditSystem.getBalance at hb
    cases hf : finalHeap log ts with
    | none => rw [hf] at hb; cases hb
    | some fh =>
      rw [hf] at hb
      have hbval : sumHeap fh = b := by simpa using hb
      refine ⟨fh, rfl, hbval.symm, ?_⟩
      unfold finalHeap at hf
      cases hr : replay (selectedEvents log ts) [] with
      | none => rw [hr] at hf; cases hf
      | some m =>
        rw [hr] at hf
        have hfh : expire_credits ts m = fh := by simpa using hf
        have hmS : List.Sorted bLE m := replay_sorted (by simp) hr
        intro bk hbk
        rw [← hfh] at hbk
        exact mem_expire_lt hmS hbk
  · intro g hg
    have h1 : g.ts ≤ g.expire_ts - 1 := by omega
    have h2 : ¬ (g.expire_ts ≤ g.expire_ts - 1) := by omega
    constructor
    · unfold GpuCreditSystem.getBalance finalHeap selectedEvents sortByTs
      simp [List.insertionSort, List.orderedInsert, Event.ts, h1, replay,
        heapPush, expire_credits, h2, sumHeap]
    · unfold GpuCreditSystem.getBalance finalHeap selectedEvents sortByTs
      simp [List.insertionSort, List.orderedInsert, Event.ts, hg.le, replay,
        heapPush, expire_credits, sumHeap]

/-- C4 witness: the general part applied to a one-grant log and the
closedness part applied to the grant `(amount 4, ts 2, expire_ts 9)`. -/
theorem c4_witness :
    (GpuCreditSystem.getBalance [Event.grant ⟨4, 2, 9⟩] 5 = some 4 ∧
      ∃ fh, finalHeap [Event.grant ⟨4, 2, 9⟩] 5 = some fh ∧
        (4:Int) = sumHeap fh ∧ ∀ bk ∈ fh, (5:Int) < bk.1) ∧
    ((2:Int) < 9 ∧
      GpuCreditSystem.getBalance [Event.grant ⟨4, 2, 9⟩] (9 - 1) = some 4 ∧
      GpuCreditSystem.getBalance [Event.grant ⟨4, 2, 9⟩] 9 = some 0) := by
  refine ⟨⟨by decide, ?_⟩, ⟨by decide, ?_, ?_⟩⟩
  · exact c4_expiry_closedness.1 [Event.grant ⟨4, 2, 9⟩] 5 4 (by decide)
  · exact (c4_expiry_closedness.2 ⟨4, 2, 9⟩ (by decide)).1
  · exact (c4_expiry_closedness.2 ⟨4, 2, 9⟩ (by decide)).2

/-- C5: consumption is earliest-expiring-first.  In a sorted heap the
popped head expires no later than any other active bucket; when the popped
bucket's remaining exceeds the needed amount it is pushed back decremented
by exactly that amount and the spend is satisfied; when it does not, it is
fully drained before any later bucket is touched; and quantitatively, a
successful spend of `c` leaves, beyond every horizon `T`, exactly
`min(sumAfter h T, sumHeap h - c)` — the amount forced by draining the
earliest-expiring buckets first. -/
theorem c5_earliest_expiry_first :
    (∀ (b : Bucket) (h : List Bucket), List.Sorted bLE (b :: h) →
        ∀ x ∈ h, b.1 ≤ x.1) ∧
    (∀ (c e a : Int) (rest : List Bucket), 0 < c → c < a →
        consume c ((e, a) :: rest) = some (heapPush rest (e, a - c))) ∧
    (∀ (c e a : Int) (rest : List Bucket), 0 < c → a ≤ c →
        consume c ((e, a) :: rest) = consume (c - a) rest) ∧
    (∀ (h : List Bucket) (c : Int), List.Sorted bLE h → HNonneg h → 0 ≤ c →
        c ≤ sumHeap h → ∃ k, consume c h = some k ∧
          ∀ T, sumAfter k T = min (sumAfter h T) (sumHeap h - c)) := by
  refine ⟨?_, ?_, ?_, ?_⟩
  · intro b h hs x hx
    exact bLE_fst ((List.sorted_cons.mp hs).1 x hx)
  · intro c e a rest hc hac
    simp [consume, hc, hac]
  · intro c e a rest hc hac
    simp [consume, hc, not_lt.mpr hac]
  · intro h c hs hn hc0 hcs
    obtain ⟨k, hk, -, -, -, hS⟩ := consume_spec hs hn hc0 hcs
    exact ⟨k, hk, hS⟩

/-- C5 witness: the push-back equation and the quantitative part applied at
concrete heaps with all hypotheses discharged. -/
theorem c5_witness :
    ((0:Int) < 1 ∧ (1:Int) < 3 ∧
      consume 1 [((5:Int), (3:Int))] = some (heapPush [] (5, 2))) ∧
    (∃ k, consume 3 [((2:Int), (2:Int)), ((9:Int), (3:Int))] = some k ∧
      ∀ T, sumAfter k T =
        min (sumAfter [((2:Int), (2:Int)), ((9:Int), (3:Int))] T)
          (sumHeap [((2:Int), (2:Int)), ((9:Int), (3:Int))] - 3)) := by
  constructor
  · exact ⟨by decide, by decide,
      c5_earliest_expiry_first.2.1 1 5 3 [] (by decide) (by decide)⟩
  · exact c5_earliest_expiry_first.2.2.2 [((2:Int), (2:Int)), ((9:Int), (3:Int))] 3
      (by unfold bLE; decide) (by unfold HNonneg; decide) (by decide) (by decide)

/-- C6: `getBalance` replays exactly the selected events, which are sorted
by timestamp ascending, are a permutation of the filtered log, and keep
events sharing a timestamp in their original recording order (the sort is
stable: filtering any single timestamp out of the sorted list returns the
same subsequence as filtering the unsorted selection). -/
theorem c6_stable_order (log : List Event) (ts : Int) :
    List.Pairwise (fun a b : Event => a.ts ≤ b.ts) (selectedEvents log ts) ∧
    List.Perm (selectedEvents log ts) (log.filter (fun e => e.ts ≤ ts)) ∧
    (∀ t : Int, (selectedEvents log ts).filter (fun e => e.ts = t) =
      (log.filter (fun e => e.ts ≤ ts)).filter (fun e => e.ts = t)) ∧
    GpuCreditSystem.getBalance log ts =
      (replay (selectedEvents log ts) []).map
        (fun h => sumHeap (expire_credits ts h)) := by
  refine ⟨?_, ?_, ?_, ?_⟩
  · exact List.sorted_insertionSort eLE _
  · exact List.perm_insertionSort eLE _
  · intro t
    exact sortByTs_filter_ts _ t
  · unfold GpuCreditSystem.getBalance finalHeap
    cases replay (selectedEvents log ts) [] <;> rfl

/-- C7: `getBalance` is pure: as a state transformer it returns the event
log unchanged, its result depends only on the log contents and the query
timestamp, and interposing any other query does not change it. -/
theorem c7_getbalance_pure (s : List Event) (ts₁ ts₂ : Int) :
    (GpuCreditSystem.getBalanceOp s ts₁).1 = s ∧
    (GpuCreditSystem.getBalanceOp ((GpuCreditSystem.getBalanceOp s ts₁).1) ts₂).2 =
      (GpuCreditSystem.getBalanceOp s ts₂).2 ∧
    (GpuCreditSystem.getBalanceOp s ts₁).2 = GpuCreditSystem.getBalance s ts₁ :=
  ⟨rfl, rfl, rfl⟩

/-- C8: a Spend of amount 0 never raises `InsufficientCredit` and consumes
nothing: appending a zero-amount `SubtractEvent` at any timestamp to any
log leaves every `getBalance` result unchanged. -/
theorem c8_zero_spend_noop (log : List Event) (t ts : Int) :
    GpuCreditSystem.getBalance (log ++ [Event.subtract ⟨0, t⟩]) ts =
      GpuCreditSystem.getBalance log ts := by
  by_cases h : t ≤ ts
  · apply getBalance_append_step h
    intro k _
    refine ⟨expire_credits t k, ?_, ?_⟩
    · have h0 : consume (0:Int) (expire_credits t k) = some (expire_credits t k) :=
        consume_nonpos _ (le_refl 0)
      simp [replay, h0]
    · intro u hu
      exact expire_expire t u k hu
  · unfold GpuCreditSystem.getBalance finalHeap selectedEvents
    rw [List.filter_append]
    simp [Event.ts, h]

/-- C9: every query terminates: the inner consumption loop finishes within
`h.length + 1` iterations (a fuelled version with that budget returns the
unfuelled result), and every `getBalance` call yields a value — either
`none` (the raised error) or a balance. -/
theorem c9_termination :
    (∀ (fuel : Nat) (need : Int) (h : List Bucket), h.length < fuel →
        consumeFuel fuel need h = some (consume need h)) ∧
    (∀ (log : List Event) (ts : Int),
        GpuCreditSystem.getBalance log ts = none ∨
        ∃ b, GpuCreditSystem.getBalance log ts = some b) := by
  constructor
  · intro fuel need h
    induction h generalizing fuel need with
    | nil =>
      intro hf
      cases fuel with
      | zero => simp at hf
      | succ f =>
        by_cases hc : need > 0 <;> simp [consumeFuel, consume, hc]
    | cons b rest ih =>
      intro hf
      obtain ⟨e, a⟩ := b
      cases fuel with
      | zero => simp at hf
      | succ f =>
        have hf' : rest.length < f := by
          simp only [List.length_cons] at hf
          omega
        by_cases hc : need > 0
        · by_cases hac : a > need
          · simp [consumeFuel, consume, hc, hac]
          · simp only [consumeFuel, consume, hc, if_true, hac, if_false]
            simpa [hc, hac] using ih f (need - a) hf'
        · simp [consumeFuel, consume, hc]
  · intro log ts
    cases GpuCreditSystem.getBalance log ts with
    | none => exact Or.inl rfl
    | some b => exact Or.inr ⟨b, rfl⟩

/-- C9 witness: the fuel bound applied at a concrete heap with the length
hypothesis discharged. -/
theorem c9_witness :
    List.length [((2:Int), (3:Int))] < 3 ∧
    consumeFuel 3 5 [((2:Int), (3:Int))] = some (consume 5 [((2:Int), (3:Int))]) :=
  ⟨by decide, c9_termination.1 3 5 [((2:Int), (3:Int))] (by decide)⟩

/-- C10: the two implementations are behaviourally equivalent: for every
sequence of `createGrant`/`subtract` calls and every query timestamp,
`CreditSystem.getBalance` and `GpuCreditSystem.getBalance` return the same
balance or both raise. -/
theorem c10_equivalence (ops : List Op) (ts : Int) :
    CreditSystem.getBalance (CreditSystem.run ops) ts =
      GpuCreditSystem.getBalance (GpuCreditSystem.run ops) ts := by
  rw [run_map, cs_getBalance_eq]
